import Mathlib

/-!
Verification of the synchronization and conflict-resolution engine of a
collaborative kanban board (TypeScript repository).  The development shallowly
embeds the relevant source modules:

* `backend/src/utils/fractionalIndex.ts` — the ordering engine (positions as
  strings over a 62-symbol alphabet);
* `backend/src/db/taskRepository.ts` and `backend/src/services/taskService.ts`
  — the optimistic-concurrency controller (version-checked mutations over the
  task store, modelled as a list of rows);
* the client store (`frontend/src/store/taskStore.ts`) and WebSocket hook
  (`frontend/src/hooks/useWebSocket.ts`) — offline queue, replay, and the
  `sync:ack` handler.

Positions are `List Char` (JS strings); machine numbers are `Nat`/`Int`
(version counters and comparison results never overflow in the source's
domain); fallible code returns `Option`.
-/

/-! ## Ordering engine: `backend/src/utils/fractionalIndex.ts` -/

/-- `BASE_CHARS`: the 62-symbol alphabet `0-9A-Za-z`. -/
def baseChars : List Char :=
  "0123456789ABCDEFGHIJKLMNOPQRSTUVWXYZabcdefghijklmnopqrstuvwxyz".toList

/-- `BASE = BASE_CHARS.length` (62). -/
def base : Nat := baseChars.length

/-- `MID_CHAR = BASE_CHARS[Math.floor(BASE / 2)]` (the character `V`). -/
def midChar : Char := baseChars.getD (base / 2) '0'

/-- `charToIndex`: index of a character in the alphabet; characters outside
the alphabet map to 0 (the JS code turns `indexOf`'s `-1` into `0`).
`List.indexOf` returns the length when the element is absent. -/
def charToIndex (c : Char) : Nat :=
  let i := baseChars.indexOf c
  if i = baseChars.length then 0 else i

/-- `indexToChar`: character at an index, clamped into `[0, BASE-1]`
(the lower clamp of the JS code is vacuous for `Nat`). -/
def indexToChar (i : Nat) : Char :=
  baseChars.getD (min i (base - 1)) '0'

/-- `generateInitialPosition()` returns `"V"`. -/
def generateInitialPosition : List Char := ['V']

/-- `comparePositions(a, b)`: digit-by-digit comparison; a position past the
end of a string contributes index `-1` (strictly below every alphabet
symbol), and the first index difference decides the sign. -/
def comparePositions : List Char → List Char → Int
  | [], [] => 0
  | [], b :: _ => -1 - (charToIndex b : Int)
  | a :: _, [] => (charToIndex a : Int) + 1
  | a :: as, b :: bs =>
    if charToIndex a = charToIndex b then comparePositions as bs
    else (charToIndex a : Int) - (charToIndex b : Int)

/-- `isValidPosition`: non-empty and every character is in the alphabet. -/
def isValidPosition (p : List Char) : Bool :=
  !p.isEmpty && p.all (fun c => baseChars.contains c)

/-- `decrementPosition`: decrement the rightmost symbol above the minimum,
set everything to its right to the maximum, append `MID_CHAR`; if every
symbol is the minimum, return `'0' + indexToChar(BASE/4)` (the string
`"0F"`). -/
def decrementPosition (pos : List Char) : List Char :=
  let rev := pos.reverse
  let zeros := rev.takeWhile (fun c => charToIndex c = 0)
  match rev.dropWhile (fun c => charToIndex c = 0) with
  | [] => ['0', indexToChar (base / 4)]
  | c :: rest =>
    (rest.reverse ++ [indexToChar (charToIndex c - 1)] ++
      List.replicate zeros.length (indexToChar (base - 1))) ++ [midChar]

/-- `incrementPosition`: increment the rightmost symbol below the maximum and
truncate what follows; if every symbol is the maximum, append `MID_CHAR`. -/
def incrementPosition (pos : List Char) : List Char :=
  let rev := pos.reverse
  match rev.dropWhile (fun c => charToIndex c = base - 1) with
  | [] => pos ++ [midChar]
  | c :: rest => rest.reverse ++ [indexToChar (charToIndex c + 1)]

/-- The scan of `midpointPos` over the two length-padded strings: copy common
symbols; at the first difference return the floor-midpointPos symbol when it
strictly exceeds the lower symbol, else the lower symbol followed by
`MID_CHAR`; if the padded strings never differ, append `MID_CHAR`. -/
def midpointGo : List Char → List Char → List Char
  | a :: as, b :: bs =>
    if charToIndex a = charToIndex b then a :: midpointGo as bs
    else
      let midIdx := (charToIndex a + charToIndex b) / 2
      if charToIndex a < midIdx then [indexToChar midIdx]
      else [a, midChar]
  | _, _ => [midChar]

/-- `padEnd(n, '0')` of the JS code. -/
def padZero (p : List Char) (n : Nat) : List Char :=
  p ++ List.replicate (n - p.length) '0'

/-- `midpointPos(before, after)`: throws (here `none`) unless
`comparePositions(before, after) < 0`; otherwise scans the two
zero-padded strings. -/
def midpointPos (before after : List Char) : Option (List Char) :=
  if 0 ≤ comparePositions before after then none
  else
    let maxLen := max before.length after.length
    some (midpointGo (padZero before maxLen) (padZero after maxLen))

/-- JS falsiness of an optional string: `undefined` or the empty string. -/
def isFalsy : Option (List Char) → Bool
  | none => true
  | some s => s.isEmpty

/-- `generatePositionBetween(before?, after?)`. -/
def generatePositionBetween (before after : Option (List Char)) :
    Option (List Char) :=
  if isFalsy before && isFalsy after then some generateInitialPosition
  else if isFalsy before then some (decrementPosition (after.getD []))
  else if isFalsy after then some (incrementPosition (before.getD []))
  else midpointPos (before.getD []) (after.getD [])

/-- `generatePositionBefore(p) = generatePositionBetween(undefined, p)`. -/
def generatePositionBefore (p : List Char) : Option (List Char) :=
  generatePositionBetween none (some p)

/-- `generatePositionAfter(p) = generatePositionBetween(p, undefined)`. -/
def generatePositionAfter (p : List Char) : Option (List Char) :=
  generatePositionBetween (some p) none

/-! ## Data model and repository: `backend/src/db/taskRepository.ts`

The durable store is modelled as a list of task rows; `FOR UPDATE` row
locking and transactional atomicity collapse to ordinary function
application (each repository call is one atomic state transition).
Timestamps are not modelled: no claim constrains them. -/

inductive Column where
  | todo
  | in_progress
  | done
deriving DecidableEq

/-- The string stored in the `column` column, as interpolated into
user-facing messages. -/
def columnName : Column → String
  | .todo => "todo"
  | .in_progress => "in_progress"
  | .done => "done"

structure TaskRec where
  id : String
  title : String
  description : String
  column : Column
  position : List Char
  version : Nat
deriving DecidableEq

/-- `SELECT * FROM tasks WHERE id = $1` (ids are the primary key). -/
def findTask (store : List TaskRec) (i : String) : Option TaskRec :=
  store.find? (fun t => t.id == i)

structure CreateTaskInput where
  title : String
  description : String
  column : Column
deriving DecidableEq

structure UpdateTaskInput where
  id : String
  title : Option String
  description : Option String
  version : Nat
deriving DecidableEq

structure MoveTaskInput where
  id : String
  column : Column
  position : List Char
  version : Nat
deriving DecidableEq

structure UpdateResult where
  task : Option TaskRec
  conflict : Bool
  currentVersion : Option Nat
deriving DecidableEq

inductive RepoConflictType where
  | version_mismatch
  | concurrent_move
deriving DecidableEq

structure MoveResult where
  task : Option TaskRec
  conflict : Bool
  currentVersion : Option Nat
  conflictType : Option RepoConflictType
deriving DecidableEq

structure DeleteResult where
  deleted : Bool
  conflict : Bool
deriving DecidableEq

/-- `ORDER BY position DESC LIMIT 1`: the greatest position of the list
(the store's range scan is ordered consistently with `comparePositions`). -/
def maxPosition : List (List Char) → Option (List Char)
  | [] => none
  | p :: ps => some (ps.foldl (fun acc q => if 0 < comparePositions q acc then q else acc) p)

/-- Repository `createTask`: position after the last row of the target
column (or the initial position for an empty column), version 1, row
appended. The fresh uuid is a parameter. -/
def createTask (store : List TaskRec) (newId : String) (input : CreateTaskInput) :
    TaskRec × List TaskRec :=
  let colPositions := (store.filter (fun t => t.column == input.column)).map (fun t => t.position)
  let position :=
    match maxPosition colPositions with
    | some p => (generatePositionAfter p).getD []
    | none => (generatePositionBetween none none).getD []
  let task : TaskRec := ⟨newId, input.title, input.description, input.column, position, 1⟩
  (task, store ++ [task])

/-- The row produced by `UPDATE tasks SET [title,] [description,]
version = version + 1 WHERE id = $id`. -/
def applyUpdateRow (input : UpdateTaskInput) (t : TaskRec) : TaskRec :=
  { t with
    title := input.title.getD t.title
    description := input.description.getD t.description
    version := t.version + 1 }

/-- Repository `updateTask`: lock the row, compare versions; on mismatch
return the authoritative row and change nothing, else apply the update. -/
def updateTask (store : List TaskRec) (input : UpdateTaskInput) :
    UpdateResult × List TaskRec :=
  match findTask store input.id with
  | none => (⟨none, false, none⟩, store)
  | some t =>
    if t.version ≠ input.version then
      (⟨some t, true, some t.version⟩, store)
    else
      (⟨some (applyUpdateRow input t), false, none⟩,
        store.map (fun u => if u.id == input.id then applyUpdateRow input u else u))

/-- The row produced by `UPDATE tasks SET column = $1, position = $2,
version = version + 1 WHERE id = $3`. -/
def applyMoveRow (input : MoveTaskInput) (t : TaskRec) : TaskRec :=
  { t with
    column := input.column
    position := input.position
    version := t.version + 1 }

/-- Repository `moveTask`: identical version check; the stale branch is
tagged `version_mismatch` by the repository. -/
def moveTask (store : List TaskRec) (input : MoveTaskInput) :
    MoveResult × List TaskRec :=
  match findTask store input.id with
  | none => (⟨none, false, none, none⟩, store)
  | some t =>
    if t.version ≠ input.version then
      (⟨some t, true, some t.version, some .version_mismatch⟩, store)
    else
      (⟨some (applyMoveRow input t), false, none, none⟩,
        store.map (fun u => if u.id == input.id then applyMoveRow input u else u))

/-- Repository `deleteTask`: version check, then `DELETE`. -/
def deleteTask (store : List TaskRec) (i : String) (version : Nat) :
    DeleteResult × List TaskRec :=
  match findTask store i with
  | none => (⟨false, false⟩, store)
  | some t =>
    if t.version ≠ version then (⟨false, true⟩, store)
    else (⟨true, false⟩, store.filter (fun u => u.id != i))

/-! ## Service layer: `backend/src/services/taskService.ts` -/

inductive ServiceConflictType where
  | version_mismatch
  | concurrent_move
  | concurrent_edit
deriving DecidableEq

structure ServiceConflict where
  ctype : ServiceConflictType
  currentVersion : Option Nat
  currentTask : Option TaskRec
  message : String
deriving DecidableEq

structure ServiceResult (α : Type) where
  success : Bool
  data : Option α
  error : Option String
  conflict : Option ServiceConflict
deriving DecidableEq

def hexDigit (c : Char) : Bool :=
  ('0' ≤ c && c ≤ '9') || ('a' ≤ c && c ≤ 'f') || ('A' ≤ c && c ≤ 'F')

/-- Modelled form of `z.string().uuid()`: 36 characters, hyphens at
positions 8, 13, 18, 23, hexadecimal digits elsewhere. No claim depends
on the finer points of zod's uuid regular expression. -/
def isUuid (s : String) : Bool :=
  let cs := s.toList
  cs.length == 36 &&
    (List.range 36).all (fun i =>
      if i == 8 || i == 13 || i == 18 || i == 23 then cs.getD i ' ' == '-'
      else hexDigit (cs.getD i ' '))

/-- `UpdateTaskSchema.safeParse` succeeding: uuid id, optional bounded
title and description, positive version. -/
def validateUpdateInput (input : UpdateTaskInput) : Bool :=
  isUuid input.id &&
    (match input.title with
      | none => true
      | some s => decide (1 ≤ s.length) && decide (s.length ≤ 500)) &&
    (match input.description with
      | none => true
      | some s => decide (s.length ≤ 5000)) &&
    decide (0 < input.version)

/-- `MoveTaskSchema.safeParse` succeeding (column and position are typed). -/
def validateMoveInput (input : MoveTaskInput) : Bool :=
  isUuid input.id && decide (0 < input.version)

/-- `DeleteTaskSchema.safeParse` succeeding. -/
def validateDeleteInput (i : String) (version : Nat) : Bool :=
  isUuid i && decide (0 < version)

/-- Service `updateTask`: validate, call the repository, classify a stale
version as `version_mismatch` carrying the authoritative row. -/
def updateTaskService (store : List TaskRec) (input : UpdateTaskInput) :
    ServiceResult TaskRec × List TaskRec :=
  if !validateUpdateInput input then
    (⟨false, none, some "Validation error", none⟩, store)
  else
    let res := updateTask store input
    match res.1.task with
    | none => (⟨false, none, some "Task not found", none⟩, res.2)
    | some t =>
      if res.1.conflict then
        (⟨false, none, none,
          some ⟨.version_mismatch, res.1.currentVersion, some t,
            "Task was modified by another user. Your changes could not be applied."⟩⟩,
          res.2)
      else (⟨true, some t, none, none⟩, res.2)

/-- Service `moveTask`: every repository conflict is reported as
`concurrent_move`, with a message naming the column of the authoritative
row (the repository's `conflictType` field is discarded). -/
def moveTaskService (store : List TaskRec) (input : MoveTaskInput) :
    ServiceResult TaskRec × List TaskRec :=
  if !validateMoveInput input then
    (⟨false, none, some "Validation error", none⟩, store)
  else
    let res := moveTask store input
    match res.1.task with
    | none => (⟨false, none, some "Task not found", none⟩, res.2)
    | some t =>
      if res.1.conflict then
        (⟨false, none, none,
          some ⟨.concurrent_move, res.1.currentVersion, some t,
            "Task was moved by another user to \"" ++ columnName t.column ++
              "\". Your move was not applied."⟩⟩,
          res.2)
      else (⟨true, some t, none, none⟩, res.2)

/-- Service `deleteTask`: the conflict branch carries only a
classification and a message (no current task, no current version). -/
def deleteTaskService (store : List TaskRec) (i : String) (version : Nat) :
    ServiceResult String × List TaskRec :=
  if !validateDeleteInput i version then
    (⟨false, none, some "Validation error", none⟩, store)
  else
    let res := deleteTask store i version
    if !res.1.deleted && !res.1.conflict then
      (⟨false, none, some "Task not found", none⟩, res.2)
    else if res.1.conflict then
      (⟨false, none, none,
        some ⟨.version_mismatch, none, none,
          "Task was modified by another user and cannot be deleted."⟩⟩,
        res.2)
    else (⟨true, some i, none, none⟩, res.2)

/-! ## Client: `frontend/src/hooks/useWebSocket.ts` and
`frontend/src/store/taskStore.ts`

The wire payload of a task command carries at most an id, field edits, a
target column/index and the version captured when the command was issued;
absent fields are `none`. -/

structure WirePayload where
  pid : Option String
  ptitle : Option String
  pdescription : Option String
  pcolumn : Option Column
  ptargetIndex : Option Nat
  pversion : Option Nat
deriving DecidableEq

structure WSMessage where
  mtype : String
  payload : WirePayload
  clientId : String
  timestamp : Nat
  messageId : String
deriving DecidableEq

/-- A queued command. `otype` stores `message.type` verbatim (the TS cast
`message.type as 'create'|...` does not change the runtime string). -/
structure QueuedOperation where
  id : String
  otype : String
  payload : WSMessage
  timestamp : Nat
  retryCount : Nat
deriving DecidableEq

/-- Store action `addToQueue`: append with a fresh uuid, the current time
and `retryCount = 0` (uuid and clock are parameters). -/
def addToQueue (queue : List QueuedOperation) (newOpId : String) (now : Nat)
    (oty : String) (payload : WSMessage) : List QueuedOperation :=
  queue ++ [⟨newOpId, oty, payload, now, 0⟩]

/-- `sendMessage` when the socket is not open: the fully assembled message
(with the version captured inside its payload) is queued instead of sent. -/
def sendMessageOffline (queue : List QueuedOperation) (newOpId : String)
    (now : Nat) (msg : WSMessage) : List QueuedOperation :=
  addToQueue queue newOpId now msg.mtype msg

/-- The `ws.onopen` replay loop: iterate over the snapshot of the queue
taken at reconnect, sending each operation's stored payload and removing
the operation (by id) from the live queue. Returns the transmissions in
order and the final queue. -/
def replayGo : List QueuedOperation → List QueuedOperation →
    List WSMessage × List QueuedOperation
  | [], queue => ([], queue)
  | op :: rest, queue =>
    let r := replayGo rest (queue.filter (fun o => o.id != op.id))
    (op.payload :: r.1, r.2)

/-- Reconnect replay over the current queue. -/
def replayQueue (queue : List QueuedOperation) :
    List WSMessage × List QueuedOperation :=
  replayGo queue queue

/-! ### The client task store (`taskStore.ts`) -/

structure PendingOperation where
  ptype : String
  originalTask : Option TaskRec
deriving DecidableEq

/-- The slice of the zustand store the `sync:ack` handler touches:
the task list and the pending-operation map (association list keyed by
message correlation id; JS `Map` keys are unique, `delete` removes the
key if present). -/
structure ClientState where
  tasks : List TaskRec
  pendingOperations : List (String × PendingOperation)
deriving DecidableEq

def columnOrder : Column → Int
  | .todo => 0
  | .in_progress => 1
  | .done => 2

/-- Sign model of `a.position.localeCompare(b.position)`: code-point
lexicographic comparison (deterministic; only the sign is ever used). -/
def localeCompare : List Char → List Char → Int
  | [], [] => 0
  | [], _ :: _ => -1
  | _ :: _, [] => 1
  | a :: as, b :: bs =>
    if a = b then localeCompare as bs
    else if a < b then -1 else 1

/-- The comparator of `sortTasksByPosition`: column order first, then
position. -/
def taskCmp (a b : TaskRec) : Int :=
  if a.column ≠ b.column then columnOrder a.column - columnOrder b.column
  else localeCompare a.position b.position

def taskLe (a b : TaskRec) : Prop := taskCmp a b ≤ 0

instance : DecidableRel taskLe :=
  fun a b => inferInstanceAs (Decidable (taskCmp a b ≤ 0))

/-- `sortTasksByPosition`: JS `Array.prototype.sort` is stable, as is
insertion sort. -/
def sortTasksByPosition (l : List TaskRec) : List TaskRec :=
  l.insertionSort taskLe

/-- The `sync:ack` branch of `handleMessage`: resolve the pending
operation (delete by correlation id), then, when the ack carries a task,
replace it if present (store action `updateTask`) or append it
(store action `addTask`); both re-sort. -/
def handleAck (st : ClientState) (ackMessageId : String)
    (ackTask : Option TaskRec) : ClientState :=
  let pending := st.pendingOperations.filter (fun kv => kv.1 != ackMessageId)
  match ackTask with
  | none => { st with pendingOperations := pending }
  | some task =>
    match st.tasks.find? (fun t => t.id == task.id) with
    | some _ =>
      ⟨sortTasksByPosition (st.tasks.map (fun t => if t.id == task.id then task else t)),
        pending⟩
    | none =>
      ⟨sortTasksByPosition (st.tasks ++ [task]), pending⟩

/-! ## Lemmas about the ordering engine -/

theorem charToIndex_lt (c : Char) : charToIndex c < 62 := by
  have hlen : baseChars.length = 62 := by decide
  have hle : baseChars.indexOf c ≤ baseChars.length := List.indexOf_le_length
  unfold charToIndex
  simp only [hlen] at hle ⊢
  split <;> omega

set_option maxRecDepth 4000 in
theorem charToIndex_indexToChar {n : Nat} (hn : n < 62) :
    charToIndex (indexToChar n) = n := by
  have h : ∀ m : Fin 62, charToIndex (indexToChar m.val) = m.val := by decide
  exact h ⟨n, hn⟩

theorem comparePositions_self (a : List Char) : comparePositions a a = 0 := by
  induction a with
  | nil => rfl
  | cons c cs ih => simp [comparePositions, ih]

theorem comparePositions_neg (a b : List Char) :
    comparePositions b a = -comparePositions a b := by
  induction a generalizing b with
  | nil =>
    cases b with
    | nil => simp [comparePositions]
    | cons d ds => simp [comparePositions]
  | cons c cs ih =>
    cases b with
    | nil =>
      simp [comparePositions]
      ring
    | cons d ds =>
      by_cases h : charToIndex c = charToIndex d
      · simp [comparePositions, h, ih]
      · simp [comparePositions, h, Ne.symm h]

theorem comparePositions_zero_congr {a b : List Char}
    (h : comparePositions a b = 0) :
    ∀ c, comparePositions a c = comparePositions b c := by
  induction a generalizing b with
  | nil =>
    cases b with
    | nil => intro c; rfl
    | cons d ds =>
      exfalso
      have hd := charToIndex_lt d
      simp [comparePositions] at h
      omega
  | cons x xs ih =>
    cases b with
    | nil =>
      exfalso
      have hx := charToIndex_lt x
      simp [comparePositions] at h
      omega
    | cons d ds =>
      intro c
      by_cases hx : charToIndex x = charToIndex d
      · simp only [comparePositions, hx, if_pos rfl] at h
        cases c with
        | nil => simp [comparePositions, hx]
        | cons e es =>
          simp only [comparePositions, hx]
          split
          · exact ih h es
          · rfl
      · exfalso
        simp only [comparePositions, if_neg hx] at h
        omega

theorem comparePositions_trans {a b c : List Char}
    (hab : comparePositions a b < 0) (hbc : comparePositions b c < 0) :
    comparePositions a c < 0 := by
  induction b generalizing a c with
  | nil =>
    exfalso
    cases a with
    | nil => simp [comparePositions] at hab
    | cons x xs =>
      have := charToIndex_lt x
      simp [comparePositions] at hab
      omega
  | cons d ds ih =>
    cases a with
    | nil =>
      cases c with
      | nil =>
        exfalso
        have := charToIndex_lt d
        simp [comparePositions] at hbc
        omega
      | cons e es =>
        have := charToIndex_lt e
        simp [comparePositions]
        omega
    | cons x xs =>
      cases c with
      | nil =>
        exfalso
        have := charToIndex_lt d
        simp [comparePositions] at hbc
        omega
      | cons e es =>
        simp only [comparePositions] at hab hbc ⊢
        split_ifs at hab hbc ⊢ with h1 h2 h3 <;>
          first
            | exact ih hab hbc
            | omega

theorem comparePositions_le_lt_trans {a b c : List Char}
    (hab : comparePositions a b ≤ 0) (hbc : comparePositions b c < 0) :
    comparePositions a c < 0 := by
  rcases lt_or_eq_of_le hab with h | h
  · exact comparePositions_trans h hbc
  · rw [comparePositions_zero_congr h]
    exact hbc

theorem comparePositions_append_left (x u v : List Char) :
    comparePositions (x ++ u) (x ++ v) = comparePositions u v := by
  induction x with
  | nil => rfl
  | cons c cs ih => simp [comparePositions, ih]

theorem comparePositions_le_le_trans {a b c : List Char}
    (hab : comparePositions a b ≤ 0) (hbc : comparePositions b c ≤ 0) :
    comparePositions a c ≤ 0 := by
  rcases lt_or_eq_of_le hbc with h | h
  · exact le_of_lt (comparePositions_le_lt_trans hab h)
  · have h0 : comparePositions c b = 0 := by
      rw [comparePositions_neg]
      omega
    have h1 := comparePositions_zero_congr h0 a
    have h2 := comparePositions_neg a c
    have h3 := comparePositions_neg a b
    omega

theorem comparePositions_incrementPosition (p : List Char) :
    comparePositions p (incrementPosition p) < 0 := by
  cases hd : p.reverse.dropWhile (fun c => charToIndex c = base - 1) with
  | nil =>
    have hval : incrementPosition p = p ++ [midChar] := by
      unfold incrementPosition
      simp only [hd]
    rw [hval]
    have h : comparePositions (p ++ []) (p ++ [midChar]) < 0 := by
      rw [comparePositions_append_left]
      decide
    simpa using h
  | cons c rest =>
    have hval : incrementPosition p = rest.reverse ++ [indexToChar (charToIndex c + 1)] := by
      unfold incrementPosition
      simp only [hd]
    have hsplit : p.reverse.takeWhile (fun c => charToIndex c = base - 1) ++ (c :: rest)
        = p.reverse := by
      rw [← hd]
      exact List.takeWhile_append_dropWhile _ _
    have hp : p = rest.reverse ++
        c :: (p.reverse.takeWhile (fun c => charToIndex c = base - 1)).reverse := by
      have h2 := congrArg List.reverse hsplit
      simpa [List.reverse_append] using h2.symm
    have hc : ¬ (charToIndex c = base - 1) := by
      have h3 := List.head_dropWhile_not (fun c => charToIndex c = base - 1)
        p.reverse (by simp [hd])
      simpa [hd] using h3
    have hlt := charToIndex_lt c
    have hbase : base = 62 := by decide
    have hidx : charToIndex (indexToChar (charToIndex c + 1)) = charToIndex c + 1 :=
      charToIndex_indexToChar (by omega)
    rw [hval]
    conv_lhs => rw [hp]
    rw [show (rest.reverse ++ [indexToChar (charToIndex c + 1)] : List Char)
        = rest.reverse ++ ([indexToChar (charToIndex c + 1)] : List Char) from rfl,
      comparePositions_append_left]
    simp only [comparePositions]
    rw [hidx, if_neg (by omega)]
    omega

theorem comparePositions_generatePositionAfter (p : List Char) :
    comparePositions p ((generatePositionAfter p).getD []) < 0 := by
  unfold generatePositionAfter generatePositionBetween
  cases p with
  | nil => decide
  | cons c cs =>
    simp only [isFalsy, List.isEmpty_cons, Bool.false_and, Bool.false_eq_true,
      if_false, Bool.not_false, if_true, Option.getD_some]
    exact comparePositions_incrementPosition (c :: cs)

theorem foldl_max_le (ps : List (List Char)) (a : List Char) :
    comparePositions a
        (ps.foldl (fun acc q => if 0 < comparePositions q acc then q else acc) a) ≤ 0 ∧
      ∀ q ∈ ps,
        comparePositions q
          (ps.foldl (fun acc q => if 0 < comparePositions q acc then q else acc) a) ≤ 0 := by
  induction ps generalizing a with
  | nil =>
    refine ⟨le_of_eq (comparePositions_self a), ?_⟩
    intro q hq
    cases hq
  | cons p ps ih =>
    have step1 : comparePositions a (if 0 < comparePositions p a then p else a) ≤ 0 := by
      split
      · have hn := comparePositions_neg p a
        omega
      · exact le_of_eq (comparePositions_self a)
    have step2 : comparePositions p (if 0 < comparePositions p a then p else a) ≤ 0 := by
      split
      · exact le_of_eq (comparePositions_self p)
      · omega
    obtain ⟨ih1, ih2⟩ := ih (if 0 < comparePositions p a then p else a)
    refine ⟨comparePositions_le_le_trans step1 ih1, ?_⟩
    intro q hq
    rcases List.mem_cons.1 hq with h | h
    · subst h
      exact comparePositions_le_le_trans step2 ih1
    · exact ih2 q h

theorem maxPosition_le {l : List (List Char)} {m : List Char}
    (h : maxPosition l = some m) : ∀ q ∈ l, comparePositions q m ≤ 0 := by
  cases l with
  | nil => simp [maxPosition] at h
  | cons p ps =>
    simp only [maxPosition, Option.some_inj] at h
    subst h
    intro q hq
    rcases List.mem_cons.1 hq with h | h
    · subst h
      exact (foldl_max_le ps q).1
    · exact (foldl_max_le ps p).2 q h

theorem charToIndex_inj_of_mem {c d : Char} (hc : c ∈ baseChars) (hd : d ∈ baseChars)
    (h : charToIndex c = charToIndex d) : c = d := by
  have hc' : baseChars.indexOf c < baseChars.length := List.indexOf_lt_length.2 hc
  have hd' : baseChars.indexOf d < baseChars.length := List.indexOf_lt_length.2 hd
  unfold charToIndex at h
  rw [if_neg (by omega), if_neg (by omega)] at h
  exact (List.indexOf_inj hc hd).1 h

theorem comparePositions_eq_zero_of_mem {a b : List Char}
    (ha : ∀ c ∈ a, c ∈ baseChars) (hb : ∀ c ∈ b, c ∈ baseChars) :
    comparePositions a b = 0 ↔ a = b := by
  induction a generalizing b with
  | nil =>
    cases b with
    | nil => simp [comparePositions]
    | cons d ds =>
      have := charToIndex_lt d
      simp [comparePositions]
      omega
  | cons x xs ih =>
    cases b with
    | nil =>
      have := charToIndex_lt x
      simp [comparePositions]
      omega
    | cons d ds =>
      by_cases hx : charToIndex x = charToIndex d
      · have hxd : x = d :=
          charToIndex_inj_of_mem (ha x (by simp)) (hb d (by simp)) hx
        subst hxd
        simp only [comparePositions, if_pos rfl, List.cons.injEq, true_and]
        exact ih (fun c hc => ha c (by simp [hc])) (fun c hc => hb c (by simp [hc]))
      · simp only [comparePositions, if_neg hx]
        constructor
        · intro h
          exfalso
          omega
        · intro h
          injection h with h1 h2
          exact absurd (by rw [h1]) hx

/-! ## Claims about the ordering engine -/

/-- C2: the claim states that for every pair of valid positions `a`, `b`
with `comparePositions a b < 0`, the generated midpoint `m` satisfies
`a < m < b`. The code violates this: for `a = "0z"`, `b = "1"` (both
valid, `a < b`) the generated position is `"0V"`, which is strictly
smaller than `a`. This theorem evaluates the code at that failing
input. -/
theorem C2_betweenness_fails_at_0z_1 :
    isValidPosition "0z".toList = true ∧
    isValidPosition "1".toList = true ∧
    comparePositions "0z".toList "1".toList < 0 ∧
    generatePositionBetween (some "0z".toList) (some "1".toList)
      = some "0V".toList ∧
    0 < comparePositions "0z".toList "0V".toList := by
  refine ⟨by decide, by decide, by decide, by decide, by decide⟩

/-- C3: the claim states that `generatePositionBefore x < x` even when
every symbol of `x` is the alphabet minimum. The code violates this: for
`x = "0"` it synthesizes `"0F"`, and `comparePositions "0F" "0" = 15 > 0`
(the code's own comment asserts `"0F" < "00"`, which is also false). This
theorem evaluates the code at that failing input; the other two parts of
the claim (`between(x, undefined) > x`, proved in general as
`comparePositions_generatePositionAfter`, and
`between(undefined, undefined) = initial()`) do hold. -/
theorem C3_before_fails_at_all_minimum :
    isValidPosition "0".toList = true ∧
    generatePositionBefore "0".toList = some "0F".toList ∧
    0 < comparePositions "0F".toList "0".toList ∧
    generatePositionBetween none none = some generateInitialPosition := by
  refine ⟨by decide, by decide, by decide, by decide⟩

/-- C4 counterexample: the claim states that a shorter string compares as
if padded with the alphabet minimum, so `comparePositions a b = 0` exactly
when `a` and `b` agree after minimum-symbol padding. But `"0"` padded to
length 2 is `"00"`, and `comparePositions "0" "00" = -1 ≠ 0`: a missing
symbol compares strictly below the minimum symbol. -/
theorem C4_counterexample_padding :
    padZero "0".toList 2 = "00".toList ∧
    comparePositions "0".toList "00".toList < 0 := by
  refine ⟨by decide, by decide⟩

/-- C4 (amended): `comparePositions` implements pure lexicographic
digit-by-digit comparison over the 62-symbol alphabet in which a missing
symbol of the shorter string is treated as strictly below the alphabet
minimum (a proper prefix compares strictly less), and the induced relation
is a strict total order on valid positions: it is irreflexive
(`comparePositions a a = 0`), sign-antisymmetric, transitive, and on valid
positions `comparePositions a b = 0` exactly when `a = b`. -/
theorem C4_strict_total_order :
    (∀ a : List Char, comparePositions a a = 0) ∧
    (∀ a b : List Char, comparePositions b a = -comparePositions a b) ∧
    (∀ a b c : List Char, comparePositions a b < 0 → comparePositions b c < 0 →
      comparePositions a c < 0) ∧
    (∀ a b : List Char, isValidPosition a = true → isValidPosition b = true →
      (comparePositions a b = 0 ↔ a = b)) ∧
    (∀ a b : List Char, b ≠ [] → comparePositions a (a ++ b) < 0) := by
  refine ⟨comparePositions_self, comparePositions_neg,
    fun a b c => comparePositions_trans, ?_, ?_⟩
  · intro a b ha hb
    have ha' : ∀ c ∈ a, c ∈ baseChars := by
      simp only [isValidPosition, Bool.and_eq_true, List.all_eq_true] at ha
      intro c hc
      simpa using ha.2 c hc
    have hb' : ∀ c ∈ b, c ∈ baseChars := by
      simp only [isValidPosition, Bool.and_eq_true, List.all_eq_true] at hb
      intro c hc
      simpa using hb.2 c hc
    exact comparePositions_eq_zero_of_mem ha' hb'
  · intro a b hb
    have h : comparePositions (a ++ []) (a ++ b) < 0 := by
      rw [comparePositions_append_left]
      cases b with
      | nil => exact absurd rfl hb
      | cons c cs =>
        have := charToIndex_lt c
        simp [comparePositions]
        omega
    simpa using h

/-- C4 witness: the amended theorem applied at concrete valid positions. -/
theorem C4_strict_total_order_witness :
    comparePositions "V0".toList "V0".toList = 0 ↔ "V0".toList = "V0".toList :=
  C4_strict_total_order.2.2.2.1 "V0".toList "V0".toList (by decide) (by decide)

/-! ## Claims about the concurrency controller -/

/-- C1: for every stored task and every update or move request targeting
it, a version mismatch leaves the store unchanged and returns a conflict
carrying the authoritative current record; matching versions apply the
requested fields and return a record whose version is exactly the old
version plus one. -/
theorem C1_version_check (store : List TaskRec) :
    (∀ (input : UpdateTaskInput) (t : TaskRec), findTask store input.id = some t →
      (t.version ≠ input.version →
        updateTask store input = (⟨some t, true, some t.version⟩, store)) ∧
      (t.version = input.version →
        updateTask store input =
          (⟨some (applyUpdateRow input t), false, none⟩,
            store.map (fun u => if u.id == input.id then applyUpdateRow input u else u)) ∧
        (applyUpdateRow input t).version = t.version + 1 ∧
        (applyUpdateRow input t).title = input.title.getD t.title ∧
        (applyUpdateRow input t).description = input.description.getD t.description)) ∧
    (∀ (input : MoveTaskInput) (t : TaskRec), findTask store input.id = some t →
      (t.version ≠ input.version →
        moveTask store input = (⟨some t, true, some t.version, some .version_mismatch⟩, store)) ∧
      (t.version = input.version →
        moveTask store input =
          (⟨some (applyMoveRow input t), false, none, none⟩,
            store.map (fun u => if u.id == input.id then applyMoveRow input u else u)) ∧
        (applyMoveRow input t).version = t.version + 1 ∧
        (applyMoveRow input t).column = input.column ∧
        (applyMoveRow input t).position = input.position)) := by
  constructor
  · intro input t hf
    constructor
    · intro hv
      simp [updateTask, hf, hv]
    · intro hv
      refine ⟨?_, rfl, rfl, rfl⟩
      simp [updateTask, hf, hv]
  · intro input t hf
    constructor
    · intro hv
      simp [moveTask, hf, hv]
    · intro hv
      refine ⟨?_, rfl, rfl, rfl⟩
      simp [moveTask, hf, hv]

/-- C1 witness: a stale update against a concrete one-row store returns
the conflict with the authoritative row and leaves the store unchanged. -/
theorem C1_version_check_witness :
    updateTask [⟨"a1", "t", "d", Column.todo, ['V'], 2⟩] ⟨"a1", none, none, 1⟩ =
      (⟨some ⟨"a1", "t", "d", Column.todo, ['V'], 2⟩, true, some 2⟩,
        [⟨"a1", "t", "d", Column.todo, ['V'], 2⟩]) :=
  ((C1_version_check [⟨"a1", "t", "d", Column.todo, ['V'], 2⟩]).1
    ⟨"a1", none, none, 1⟩ ⟨"a1", "t", "d", Column.todo, ['V'], 2⟩ (by decide)).1
    (by decide)

/-- C5: for every stale-version mutation, the service classifies the
conflict as `version_mismatch` for updates and deletes and as
`concurrent_move` for moves whose requested column differs from the
stored one, and the move conflict's message names the column the record
ended up in (`columnName t.column`). -/
theorem C5_conflict_classification (store : List TaskRec) :
    (∀ (input : UpdateTaskInput) (t : TaskRec),
      validateUpdateInput input = true →
      findTask store input.id = some t →
      t.version ≠ input.version →
      (updateTaskService store input).1.conflict =
        some ⟨.version_mismatch, some t.version, some t,
          "Task was modified by another user. Your changes could not be applied."⟩) ∧
    (∀ (i : String) (v : Nat) (t : TaskRec),
      validateDeleteInput i v = true →
      findTask store i = some t →
      t.version ≠ v →
      (deleteTaskService store i v).1.conflict =
        some ⟨.version_mismatch, none, none,
          "Task was modified by another user and cannot be deleted."⟩) ∧
    (∀ (input : MoveTaskInput) (t : TaskRec),
      validateMoveInput input = true →
      findTask store input.id = some t →
      t.version ≠ input.version →
      t.column ≠ input.column →
      (moveTaskService store input).1.conflict =
        some ⟨.concurrent_move, some t.version, some t,
          "Task was moved by another user to \"" ++ columnName t.column ++
            "\". Your move was not applied."⟩) := by
  refine ⟨?_, ?_, ?_⟩
  · intro input t hval hf hv
    simp [updateTaskService, updateTask, hval, hf, hv]
  · intro i v t hval hf hv
    simp [deleteTaskService, deleteTask, hval, hf, hv]
  · intro input t hval hf hv hcol
    simp [moveTaskService, moveTask, hval, hf, hv]

/-- C5 witness: the move conjunct applied at a concrete store and stale
move whose requested column differs from the stored one. -/
theorem C5_conflict_classification_witness :
    (moveTaskService
        [⟨"123e4567-e89b-12d3-a456-426614174000", "t", "d", Column.done, ['V'], 2⟩]
        ⟨"123e4567-e89b-12d3-a456-426614174000", Column.todo, ['W'], 1⟩).1.conflict =
      some ⟨.concurrent_move, some 2,
        some ⟨"123e4567-e89b-12d3-a456-426614174000", "t", "d", Column.done, ['V'], 2⟩,
        "Task was moved by another user to \"" ++ columnName Column.done ++
          "\". Your move was not applied."⟩ :=
  (C5_conflict_classification
      [⟨"123e4567-e89b-12d3-a456-426614174000", "t", "d", Column.done, ['V'], 2⟩]).2.2
    ⟨"123e4567-e89b-12d3-a456-426614174000", Column.todo, ['W'], 1⟩
    ⟨"123e4567-e89b-12d3-a456-426614174000", "t", "d", Column.done, ['V'], 2⟩
    (by decide) (by decide) (by decide) (by decide)

/-- C6 counterexample: the claim states that every conflict produced by a
mutating operation, including a stale-version delete, carries the
authoritative current record. A stale delete produces a conflict whose
`currentTask` is `none`. -/
theorem C6_counterexample_delete_conflict :
    ((deleteTaskService
        [⟨"123e4567-e89b-12d3-a456-426614174000", "t", "d", Column.todo, ['V'], 2⟩]
        "123e4567-e89b-12d3-a456-426614174000" 1).1.conflict).isSome = true ∧
    ((deleteTaskService
        [⟨"123e4567-e89b-12d3-a456-426614174000", "t", "d", Column.todo, ['V'], 2⟩]
        "123e4567-e89b-12d3-a456-426614174000" 1).1.conflict.map
          (fun c => c.currentTask)) = some none := by
  refine ⟨by decide, by decide⟩

/-- C6 (amended): conflict results for stale updates and stale moves carry
the authoritative current record, but a stale-version delete's conflict
carries only a classification and a message — its `currentTask` (and
`currentVersion`) are absent, so a losing delete cannot resynchronize from
the conflict payload alone. -/
theorem C6_conflict_payload (store : List TaskRec) :
    (∀ (input : UpdateTaskInput) (t : TaskRec),
      validateUpdateInput input = true →
      findTask store input.id = some t →
      t.version ≠ input.version →
      ((updateTaskService store input).1.conflict.map (fun c => c.currentTask)) =
        some (some t)) ∧
    (∀ (input : MoveTaskInput) (t : TaskRec),
      validateMoveInput input = true →
      findTask store input.id = some t →
      t.version ≠ input.version →
      ((moveTaskService store input).1.conflict.map (fun c => c.currentTask)) =
        some (some t)) ∧
    (∀ (i : String) (v : Nat) (t : TaskRec),
      validateDeleteInput i v = true →
      findTask store i = some t →
      t.version ≠ v →
      ((deleteTaskService store i v).1.conflict.map (fun c => c.currentTask)) =
        some none) := by
  refine ⟨?_, ?_, ?_⟩
  · intro input t hval hf hv
    simp [updateTaskService, updateTask, hval, hf, hv]
  · intro input t hval hf hv
    simp [moveTaskService, moveTask, hval, hf, hv]
  · intro i v t hval hf hv
    simp [deleteTaskService, deleteTask, hval, hf, hv]

/-- C6 witness: the amended theorem's update conjunct at a concrete stale
update — the conflict carries the authoritative record. -/
theorem C6_conflict_payload_witness :
    ((updateTaskService
        [⟨"123e4567-e89b-12d3-a456-426614174000", "t", "d", Column.todo, ['V'], 2⟩]
        ⟨"123e4567-e89b-12d3-a456-426614174000", some "new", none, 1⟩).1.conflict.map
          (fun c => c.currentTask)) =
      some (some ⟨"123e4567-e89b-12d3-a456-426614174000", "t", "d", Column.todo, ['V'], 2⟩) :=
  (C6_conflict_payload
      [⟨"123e4567-e89b-12d3-a456-426614174000", "t", "d", Column.todo, ['V'], 2⟩]).1
    ⟨"123e4567-e89b-12d3-a456-426614174000", some "new", none, 1⟩
    ⟨"123e4567-e89b-12d3-a456-426614174000", "t", "d", Column.todo, ['V'], 2⟩
    (by decide) (by decide) (by decide)

/-- C7: create always succeeds, assigns version exactly 1, appends the new
row, computes its position as `generatePositionAfter` of the greatest
existing position in the target column (or the initial position when the
column is empty), and the new position compares strictly greater than
every position already in that column. -/
theorem C7_create (store : List TaskRec) (newId : String) (input : CreateTaskInput) :
    (createTask store newId input).1.version = 1 ∧
    (createTask store newId input).2 = store ++ [(createTask store newId input).1] ∧
    (∀ m, maxPosition ((store.filter (fun u => u.column == input.column)).map
        (fun u => u.position)) = some m →
      (createTask store newId input).1.position = (generatePositionAfter m).getD []) ∧
    (maxPosition ((store.filter (fun u => u.column == input.column)).map
        (fun u => u.position)) = none →
      (createTask store newId input).1.position = generateInitialPosition) ∧
    (∀ t ∈ store, t.column = input.column →
      comparePositions t.position (createTask store newId input).1.position < 0) := by
  refine ⟨rfl, rfl, ?_, ?_, ?_⟩
  · intro m hm
    simp [createTask, hm]
  · intro hm
    simp [createTask, hm]
    rfl
  · intro t ht hcol
    have hmem : t.position ∈ (store.filter (fun u => u.column == input.column)).map
        (fun u => u.position) :=
      List.mem_map_of_mem _ (List.mem_filter.2 ⟨ht, by simp [hcol]⟩)
    cases hm : maxPosition ((store.filter (fun u => u.column == input.column)).map
        (fun u => u.position)) with
    | none =>
      exfalso
      cases hcp : (store.filter (fun u => u.column == input.column)).map
          (fun u => u.position) with
      | nil =>
        rw [hcp] at hmem
        simp at hmem
      | cons p ps =>
        rw [hcp] at hm
        simp [maxPosition] at hm
    | some m =>
      have h1 : comparePositions t.position m ≤ 0 := maxPosition_le hm _ hmem
      have h2 := comparePositions_generatePositionAfter m
      have h3 := comparePositions_le_lt_trans h1 h2
      have h4 : (createTask store newId input).1.position
          = (generatePositionAfter m).getD [] := by
        simp [createTask, hm]
      rw [h4]
      exact h3

/-- C7 witness: creating into a column already holding position `"V"`
yields a position strictly greater than it. -/
theorem C7_create_witness :
    comparePositions ['V']
      (createTask [⟨"a1", "t", "d", Column.todo, ['V'], 1⟩] "b2"
        ⟨"u", "", Column.todo⟩).1.position < 0 :=
  (C7_create [⟨"a1", "t", "d", Column.todo, ['V'], 1⟩] "b2"
      ⟨"u", "", Column.todo⟩).2.2.2.2
    ⟨"a1", "t", "d", Column.todo, ['V'], 1⟩ (by decide) (by decide)

/-- C10: an update request carrying a stored task's id and matching
version but neither a title nor a description field is accepted by the
schema and the repository: it increments the version by exactly 1 while
leaving title, description, column and position unchanged. -/
theorem C10_empty_update (store : List TaskRec) (i : String) (v : Nat) (t : TaskRec)
    (hval : validateUpdateInput ⟨i, none, none, v⟩ = true)
    (hf : findTask store i = some t)
    (hv : t.version = v) :
    (updateTaskService store ⟨i, none, none, v⟩).1.success = true ∧
    (updateTaskService store ⟨i, none, none, v⟩).1.data =
      some ⟨t.id, t.title, t.description, t.column, t.position, t.version + 1⟩ ∧
    (updateTaskService store ⟨i, none, none, v⟩).2 =
      store.map (fun u => if u.id == i then
        ⟨u.id, u.title, u.description, u.column, u.position, u.version + 1⟩ else u) := by
  have hfv : findTask store (⟨i, none, none, v⟩ : UpdateTaskInput).id = some t := hf
  refine ⟨?_, ?_, ?_⟩ <;>
    simp [updateTaskService, updateTask, hval, hfv, hv, applyUpdateRow]

/-- C10 witness: the theorem applied at a concrete one-row store and a
bare update request (id and version only). -/
theorem C10_empty_update_witness :
    (updateTaskService
        [⟨"123e4567-e89b-12d3-a456-426614174000", "t", "d", Column.todo, ['V'], 3⟩]
        ⟨"123e4567-e89b-12d3-a456-426614174000", none, none, 3⟩).1.success = true :=
  (C10_empty_update
      [⟨"123e4567-e89b-12d3-a456-426614174000", "t", "d", Column.todo, ['V'], 3⟩]
      "123e4567-e89b-12d3-a456-426614174000" 3
      ⟨"123e4567-e89b-12d3-a456-426614174000", "t", "d", Column.todo, ['V'], 3⟩
      (by decide) (by decide) (by decide)).1

/-! ## Claims about the client -/

theorem replayGo_fst (pending q : List QueuedOperation) :
    (replayGo pending q).1 = pending.map (fun op => op.payload) := by
  induction pending generalizing q with
  | nil => rfl
  | cons op rest ih => simp [replayGo, ih]

/-- C8: the reconnect replay transmits the queued operations in their
original enqueue (FIFO) order, and each transmitted message is the
`QueuedOperation`'s stored payload unmodified — in particular, a message
queued while offline (whose payload holds the version captured at enqueue
time) is retransmitted verbatim, after everything queued before it. -/
theorem C8_replay_fifo :
    (∀ queue : List QueuedOperation,
      (replayQueue queue).1 = queue.map (fun op => op.payload)) ∧
    (∀ (queue : List QueuedOperation) (newOpId : String) (now : Nat) (msg : WSMessage),
      (replayQueue (sendMessageOffline queue newOpId now msg)).1 =
        (replayQueue queue).1 ++ [msg]) := by
  constructor
  · intro q
    exact replayGo_fst q q
  · intro q i now msg
    simp [replayQueue, replayGo_fst, sendMessageOffline, addToQueue]

/-! ## Lemmas about the client sort -/

theorem localeCompare_eq_zero {a b : List Char} : localeCompare a b = 0 ↔ a = b := by
  induction a generalizing b with
  | nil => cases b <;> simp [localeCompare]
  | cons x xs ih =>
    cases b with
    | nil => simp [localeCompare]
    | cons y ys =>
      by_cases h : x = y
      · subst h
        simp [localeCompare, ih]
      · rcases lt_or_gt_of_ne h with hl | hl
        · simp [localeCompare, h, hl]
        · simp [localeCompare, h, hl, not_lt_of_gt hl]

theorem localeCompare_neg (a b : List Char) : localeCompare b a = -localeCompare a b := by
  induction a generalizing b with
  | nil => cases b <;> simp [localeCompare]
  | cons x xs ih =>
    cases b with
    | nil => simp [localeCompare]
    | cons y ys =>
      by_cases h : x = y
      · subst h
        simp [localeCompare, ih]
      · rcases lt_or_gt_of_ne h with hl | hl
        · simp [localeCompare, h, Ne.symm h, hl, not_lt_of_gt hl]
        · simp [localeCompare, h, Ne.symm h, hl, not_lt_of_gt hl]

theorem localeCompare_lt_trans {a b c : List Char}
    (hab : localeCompare a b < 0) (hbc : localeCompare b c < 0) :
    localeCompare a c < 0 := by
  induction b generalizing a c with
  | nil =>
    exfalso
    cases a with
    | nil => simp [localeCompare] at hab
    | cons x xs => simp [localeCompare] at hab
  | cons d ds ih =>
    cases a with
    | nil =>
      cases c with
      | nil => simp [localeCompare] at hbc
      | cons e es => simp [localeCompare]
    | cons x xs =>
      cases c with
      | nil => simp [localeCompare] at hbc
      | cons e es =>
        simp only [localeCompare] at hab hbc ⊢
        by_cases h1 : x = d
        · subst h1
          rw [if_pos rfl] at hab
          by_cases h2 : x = e
          · subst h2
            rw [if_pos rfl] at hbc ⊢
            exact ih hab hbc
          · rw [if_neg h2] at hbc ⊢
            exact hbc
        · rw [if_neg h1] at hab
          by_cases h3 : x < d
          · by_cases h2 : d = e
            · subst h2
              rw [if_neg h1, if_pos h3]
              omega
            · rw [if_neg h2] at hbc
              by_cases h4 : d < e
              · have hxe : x < e := lt_trans h3 h4
                rw [if_neg (ne_of_lt hxe), if_pos hxe]
                omega
              · rw [if_neg h4] at hbc
                omega
          · rw [if_neg h3] at hab
            omega

theorem localeCompare_le_trans {a b c : List Char}
    (hab : localeCompare a b ≤ 0) (hbc : localeCompare b c ≤ 0) :
    localeCompare a c ≤ 0 := by
  rcases lt_or_eq_of_le hab with h1 | h1
  · rcases lt_or_eq_of_le hbc with h2 | h2
    · exact le_of_lt (localeCompare_lt_trans h1 h2)
    · have hbceq : b = c := localeCompare_eq_zero.1 h2
      subst hbceq
      exact hab
  · have habeq : a = b := localeCompare_eq_zero.1 h1
    subst habeq
    exact hbc

theorem columnOrder_inj {x y : Column} (h : columnOrder x = columnOrder y) : x = y := by
  cases x <;> cases y <;> first | rfl | (exfalso; simp [columnOrder] at h)

theorem taskCmp_neg (a b : TaskRec) : taskCmp b a = -taskCmp a b := by
  unfold taskCmp
  by_cases h : a.column = b.column
  · rw [if_neg (by simp [h]), if_neg (by simp [h])]
    exact localeCompare_neg a.position b.position
  · rw [if_pos (Ne.symm h), if_pos h]
    ring

theorem taskLe_total (a b : TaskRec) : taskLe a b ∨ taskLe b a := by
  unfold taskLe
  have h := taskCmp_neg a b
  omega

theorem taskLe_trans {a b c : TaskRec} (hab : taskLe a b) (hbc : taskLe b c) :
    taskLe a c := by
  unfold taskLe taskCmp at hab hbc ⊢
  by_cases h1 : a.column = b.column <;> by_cases h2 : b.column = c.column
  · rw [if_neg (by simp [h1])] at hab
    rw [if_neg (by simp [h2])] at hbc
    rw [if_neg (by simp [h1.trans h2])]
    exact localeCompare_le_trans hab hbc
  · rw [if_pos (by simp [h2])] at hbc
    have hne : b.column ≠ c.column := h2
    have hord : columnOrder b.column ≠ columnOrder c.column :=
      fun h => hne (columnOrder_inj h)
    have hac : a.column ≠ c.column := by
      rw [h1]
      exact hne
    rw [if_pos hac, h1]
    omega
  · rw [if_pos (by simp [h1])] at hab
    have hne : a.column ≠ b.column := h1
    have hord : columnOrder a.column ≠ columnOrder b.column :=
      fun h => hne (columnOrder_inj h)
    have hac : a.column ≠ c.column := by
      rw [← h2]
      exact hne
    rw [if_pos hac, ← h2]
    omega
  · rw [if_pos (by simp [h1])] at hab
    rw [if_pos (by simp [h2])] at hbc
    have hord1 : columnOrder a.column ≠ columnOrder b.column :=
      fun h => h1 (columnOrder_inj h)
    have hord2 : columnOrder b.column ≠ columnOrder c.column :=
      fun h => h2 (columnOrder_inj h)
    by_cases hac : a.column = c.column
    · exfalso
      have : columnOrder a.column = columnOrder c.column := by rw [hac]
      omega
    · rw [if_pos hac]
      omega

theorem sortTasks_sorted (l : List TaskRec) :
    List.Sorted taskLe (sortTasksByPosition l) :=
  @List.sorted_insertionSort TaskRec taskLe _ ⟨taskLe_total⟩
    ⟨fun _ _ _ => taskLe_trans⟩ l

theorem sortTasks_eq_of_sorted {l : List TaskRec}
    (h : List.Sorted taskLe l) : sortTasksByPosition l = l :=
  List.Sorted.insertionSort_eq h

theorem mem_sortTasks {x : TaskRec} {l : List TaskRec} :
    x ∈ sortTasksByPosition l ↔ x ∈ l :=
  (List.perm_insertionSort taskLe l).mem_iff

theorem map_eq_self_of {α : Type} (l : List α) (f : α → α)
    (h : ∀ x ∈ l, f x = x) : l.map f = l := by
  induction l with
  | nil => rfl
  | cons x xs ih =>
    simp [h x (by simp), ih (fun y hy => h y (by simp [hy]))]

theorem filter_pending_idem (l : List (String × PendingOperation)) (mid : String) :
    (l.filter (fun kv => kv.1 != mid)).filter (fun kv => kv.1 != mid) =
      l.filter (fun kv => kv.1 != mid) := by
  rw [List.filter_filter]
  congr 1
  funext kv
  rw [Bool.and_self]

theorem handleAck_first (st : ClientState) (mid : String) (task : TaskRec) :
    List.Sorted taskLe (handleAck st mid (some task)).tasks ∧
    (∀ x ∈ (handleAck st mid (some task)).tasks, x.id = task.id → x = task) ∧
    task ∈ (handleAck st mid (some task)).tasks ∧
    (handleAck st mid (some task)).pendingOperations =
      st.pendingOperations.filter (fun kv => kv.1 != mid) := by
  unfold handleAck
  cases hfind : st.tasks.find? (fun t => t.id == task.id) with
  | some t0 =>
    simp only [hfind]
    refine ⟨sortTasks_sorted _, ?_, ?_, trivial⟩
    · intro x hx hid
      have hx' : x ∈ st.tasks.map (fun t => if t.id == task.id then task else t) :=
        mem_sortTasks.1 hx
      obtain ⟨y, hy, hfy⟩ := List.mem_map.1 hx'
      by_cases hyid : (y.id == task.id) = true
      · rw [if_pos hyid] at hfy
        exact hfy.symm
      · rw [if_neg hyid] at hfy
        exfalso
        apply hyid
        rw [hfy, hid]
        exact beq_self_eq_true task.id
    · have ht0 : t0 ∈ st.tasks := List.mem_of_find?_eq_some hfind
      have hid := List.find?_some hfind
      refine mem_sortTasks.2 (List.mem_map.2 ⟨t0, ht0, ?_⟩)
      simp only at hid
      simp [hid]
  | none =>
    simp only [hfind]
    refine ⟨sortTasks_sorted _, ?_, ?_, trivial⟩
    · intro x hx hid
      have hx' : x ∈ st.tasks ++ [task] := mem_sortTasks.1 hx
      rcases List.mem_append.1 hx' with h | h
      · exfalso
        have := List.find?_eq_none.1 hfind x h
        simp [hid] at this
      · simpa using h
    · exact mem_sortTasks.2 (by simp)

theorem handleAck_second (st : ClientState) (mid : String) (task : TaskRec)
    (hsorted : List.Sorted taskLe st.tasks)
    (hall : ∀ x ∈ st.tasks, x.id = task.id → x = task)
    (hmem : task ∈ st.tasks)
    (hpend : st.pendingOperations.filter (fun kv => kv.1 != mid) =
      st.pendingOperations) :
    handleAck st mid (some task) = st := by
  unfold handleAck
  cases hfind : st.tasks.find? (fun t => t.id == task.id) with
  | none =>
    exfalso
    have := List.find?_eq_none.1 hfind task hmem
    simp at this
  | some t1 =>
    simp only [hfind]
    have hmap : st.tasks.map (fun t => if t.id == task.id then task else t)
        = st.tasks := by
      apply map_eq_self_of
      intro x hx
      by_cases h : (x.id == task.id) = true
      · rw [if_pos h]
        exact (hall x hx (by simpa using h)).symm
      · rw [if_neg h]
    rw [hmap, sortTasks_eq_of_sorted hsorted, hpend]

/-- C9: applying the `sync:ack` handler a second time with the same
message leaves the state reached after the first application unchanged:
the task list is the same and the pending-operation map is not
decremented a second time. -/
theorem C9_ack_idempotent (st : ClientState) (mid : String) (tk : Option TaskRec) :
    handleAck (handleAck st mid tk) mid tk = handleAck st mid tk := by
  cases tk with
  | none =>
    simp [handleAck, filter_pending_idem]
  | some task =>
    obtain ⟨hsorted, hall, hmem, hpend⟩ := handleAck_first st mid task
    apply handleAck_second _ mid task hsorted hall hmem
    rw [hpend]
    exact filter_pending_idem _ mid
